import Mathlib

/-!
Verification of the MobileOne reparameterizable-backbone construction
(`kimm/_src/models/mobileone.py`).

The development has three parts:

1. A fusion engine over exact rational arithmetic.  The layer class
   `ReparameterizableConv2D` is not part of the sources at hand (only its
   call sites in `mobileone.py` are), so the branch-fusion algorithm is
   modelled from the specification: affine operators are convolutions with
   an optional folded per-channel normalization, tensors are rational-valued
   functions on channels and an unbounded integer grid, and `fuse` performs
   the normalization fold, the centered zero-padding to the largest kernel
   size, the synthesis of the identity kernel for the skip path, and the
   elementwise sum.

2. The architecture assembler: a direct transcription of the loop in
   `MobileOne.__init__` that lays out the stem and the stage blocks and
   records the named feature checkpoints.

3. The weight transfer of `MobileOne.get_reparameterized_model`: the
   lock-step walk over `zip(self.layers, model.layers)` that either assigns
   fused kernels or copies weights verbatim, together with the derived
   configuration of the returned model.
-/

/-! ### Part 1: tensors, affine operators and the fusion engine -/

/-- A tensor is a rational-valued map from a channel index and an unbounded
spatial grid.  Spatial positions are integers so that the implicit zero
padding of a convolution needs no boundary bookkeeping. -/
def Tensor : Type := ℕ → ℤ → ℤ → ℚ

/-- The spatial center offset of a square kernel of size `k`
(`(k - 1) / 2`, the "same padding" shift). -/
def center (k : ℕ) : ℤ := ((k - 1) / 2 : ℕ)

/-- Modelled from the spec: one convolution branch of a reparameterizable
unit.  `kernel o c p q` is the weight at output channel `o`, input channel
`c` and spatial offset `(p, q)`; entries outside
`[0, outC) × [0, inC) × [0, k)²` are never read.  Grouped and depthwise
convolutions are represented by full kernels that are zero outside the
group's channel block, so `apply` needs no group bookkeeping.  When
`hasNorm` is set the convolution is followed by the per-channel affine
normalization `y ↦ normScale o * y + normShift o` (the scale and shift
already derived from the running statistics, as in the data model of the
spec). -/
structure AffineOperator where
  inC : ℕ
  outC : ℕ
  k : ℕ
  stride : ℕ
  kernel : ℕ → ℕ → ℕ → ℕ → ℚ
  bias : ℕ → ℚ
  hasNorm : Bool
  normScale : ℕ → ℚ
  normShift : ℕ → ℚ

/-- The plain convolution part of an affine operator (normalization not yet
applied): bias plus the windowed sum of kernel times input. -/
def applyConv (A : AffineOperator) (x : Tensor) : Tensor :=
  fun o i j =>
    A.bias o +
      ∑ c ∈ Finset.range A.inC, ∑ p ∈ Finset.range A.k, ∑ q ∈ Finset.range A.k,
        A.kernel o c p q *
          x c ((A.stride : ℤ) * i + (p : ℤ) - center A.k)
              ((A.stride : ℤ) * j + (q : ℤ) - center A.k)

/-- A full affine operator: convolution followed by the optional per-channel
normalization. -/
def applyOp (A : AffineOperator) (x : Tensor) : Tensor :=
  fun o i j =>
    if A.hasNorm then A.normScale o * applyConv A x o i j + A.normShift o
    else applyConv A x o i j

/-- Modelled from the spec: a branch set, the parallel paths of one
reparameterizable unit.  The optional skip path is an identity connection
followed by a per-channel affine normalization (`skipScale`, `skipShift`). -/
structure BranchSet where
  inC : ℕ
  outC : ℕ
  stride : ℕ
  branches : List AffineOperator
  hasSkip : Bool
  skipScale : ℕ → ℚ
  skipShift : ℕ → ℚ

/-- The training-time forward of a branch set: the sum of all branch
outputs plus the normalized skip path when present. -/
def applyBranchSet (bs : BranchSet) (x : Tensor) : Tensor :=
  fun o i j =>
    (bs.branches.map (fun A => applyOp A x o i j)).sum +
      (if bs.hasSkip then bs.skipScale o * x o i j + bs.skipShift o else 0)

/-- Fusion step 1 (modelled from the spec): fold the normalization into the
convolution, rescaling the kernel per output channel and absorbing the
shift into the bias. -/
def foldNorm (A : AffineOperator) : AffineOperator :=
  if A.hasNorm then
    { A with
      kernel := fun o c p q => A.normScale o * A.kernel o c p q
      bias := fun o => A.normScale o * A.bias o + A.normShift o
      hasNorm := false }
  else A

/-- Fusion step 2 (modelled from the spec): zero-pad a kernel to spatial
size `K`, centering the smaller kernel with offset `(K - k) / 2` per axis. -/
def padTo (K : ℕ) (A : AffineOperator) : AffineOperator :=
  { A with
    k := K
    kernel := fun o c p q =>
      if (K - A.k) / 2 ≤ p ∧ p < (K - A.k) / 2 + A.k ∧
         (K - A.k) / 2 ≤ q ∧ q < (K - A.k) / 2 + A.k then
        A.kernel o c (p - (K - A.k) / 2) (q - (K - A.k) / 2)
      else 0 }

/-- Fusion step 3 (modelled from the spec): the implicit identity branch of
the skip path, a 1×1 kernel with a single 1 at `(o, o)` carrying the skip
path's normalization. -/
def identityOp (bs : BranchSet) : AffineOperator :=
  { inC := bs.inC, outC := bs.outC, k := 1, stride := 1,
    kernel := fun o c _ _ => if c = o then 1 else 0,
    bias := fun _ => 0,
    hasNorm := true, normScale := bs.skipScale, normShift := bs.skipShift }

/-- Fusion step 4 (modelled from the spec): the elementwise sum of a list of
same-shape operators, with `hasNorm = false` in the result. -/
def sumOps (inC outC K stride : ℕ) (l : List AffineOperator) : AffineOperator :=
  { inC := inC, outC := outC, k := K, stride := stride,
    kernel := fun o c p q => (l.map (fun A => A.kernel o c p q)).sum,
    bias := fun o => (l.map (fun A => A.bias o)).sum,
    hasNorm := false, normScale := fun _ => 1, normShift := fun _ => 0 }

/-- The largest kernel spatial size among the branches (at least 1, the
size of the synthesized identity kernel). -/
def maxK (bs : BranchSet) : ℕ := (bs.branches.map (fun A => A.k)).foldr max 1

/-- All linear paths of a branch set: the explicit branches plus, when the
skip path is present, its synthesized identity operator. -/
def allOps (bs : BranchSet) : List AffineOperator :=
  bs.branches ++ (if bs.hasSkip then [identityOp bs] else [])

/-- Modelled from the spec: the fusion engine.  Errors (`none`) on an empty
branch list and on a skip path with `inC ≠ outC` or `stride ≠ 1`; otherwise
folds each path's normalization, pads every kernel to the largest spatial
size and sums them into a single operator. -/
def fuse (bs : BranchSet) : Option AffineOperator :=
  match bs.branches with
  | [] => none
  | _ :: _ =>
    if bs.hasSkip = true ∧ (bs.inC ≠ bs.outC ∨ bs.stride ≠ 1) then none
    else
      some (sumOps bs.inC bs.outC (maxK bs) bs.stride
        ((allOps bs).map (fun A => padTo (maxK bs) (foldNorm A))))

/-! ### Part 2: the architecture assembler of `MobileOne.__init__` -/

/-- The static configuration of one `ReparameterizableConv2D` unit as built
by `MobileOne.__init__`: the constructor arguments plus the input channel
count read from `x.shape[channels_axis]`.  `filters` is the output channel
count. -/
structure UnitCfg where
  inC : ℕ
  filters : ℕ
  kernelSize : ℕ
  strides : ℕ
  hasSkip : Bool
  hasScale : Bool
  useDepthwise : Bool
  branchSize : ℕ
  reparameterized : Bool
  name : String
deriving DecidableEq

/-- The block loop of one stage (`for _ in range(n)` in
`MobileOne.__init__`): each iteration emits a depthwise unit
(`filters = input_channels`, kernel 3, stride 2 on the first block pair and
1 afterwards, skip iff stride is 1) followed by a pointwise unit (kernel 1,
stride 1, `filters = c`, skip iff `input_channels == c`, `has_scale=False`),
threading the running channel count.  Arguments after the colon: remaining
block count `n`, current block index `bi`, current input channels `ic`.
Returns the emitted units and the final channel count. -/
def blocksGo (si bsz : ℕ) (rep : Bool) (c : ℕ) : ℕ → ℕ → ℕ → List UnitCfg × ℕ
  | 0, _, ic => ([], ic)
  | n + 1, bi, ic =>
    ({ inC := ic, filters := ic, kernelSize := 3,
       strides := if bi = 0 then 2 else 1,
       hasSkip := decide ((if bi = 0 then 2 else 1) = 1),
       hasScale := true, useDepthwise := true,
       branchSize := bsz, reparameterized := rep,
       name := "stages_" ++ toString si ++ "_" ++ toString bi } ::
     { inC := ic, filters := c, kernelSize := 1, strides := 1,
       hasSkip := decide (ic = c), hasScale := false, useDepthwise := false,
       branchSize := bsz, reparameterized := rep,
       name := "stages_" ++ toString si ++ "_" ++ toString (bi + 1) } ::
     (blocksGo si bsz rep c n (bi + 2) c).1,
     (blocksGo si bsz rep c n (bi + 2) c).2)

/-- The stage loop of `MobileOne.__init__` restricted to the units it
emits: iterates over `zip(num_channels, num_blocks)` with the stage index
and the running channel count.  (The single Python loop is split here into
its unit thread and its feature-key thread; both iterate over the same
zipped list.) -/
def stagesUnits (bsz : ℕ) (rep : Bool) : List (ℕ × ℕ) → ℕ → ℕ → List UnitCfg
  | [], _, _ => []
  | (c, n) :: rest, si, ic =>
    (blocksGo si bsz rep c n 0 ic).1 ++
      stagesUnits bsz rep rest (si + 1) (blocksGo si bsz rep c n 0 ic).2

/-- The stage loop of `MobileOne.__init__` restricted to the feature keys
it records: each stage appends `BLOCK{i}_S{current_strides}` after doubling
the cumulative stride (`current_strides *= strides` with `strides = 2` at
the top of every stage), regardless of the stage's block count. -/
def stagesFeatures : List (ℕ × ℕ) → ℕ → ℕ → List String
  | [], _, _ => []
  | _ :: rest, si, cs =>
    ("BLOCK" ++ toString si ++ "_S" ++ toString (cs * 2)) ::
      stagesFeatures rest (si + 1) (cs * 2)

/-- All units laid out by `MobileOne.__init__`: the stem
(`ReparameterizableConv2D(stem_channels, 3, 2, has_skip=False,
branch_size=1, name="stem")` on the 3-channel input) followed by the stage
blocks over `zip(num_channels, num_blocks)`. -/
def assembleUnits (num_blocks num_channels : List ℕ) (stem_channels branch_size : ℕ)
    (rep : Bool) : List UnitCfg :=
  { inC := 3, filters := stem_channels, kernelSize := 3, strides := 2,
    hasSkip := false, hasScale := true, useDepthwise := false,
    branchSize := 1, reparameterized := rep, name := "stem" } ::
    stagesUnits branch_size rep (num_channels.zip num_blocks) 0 stem_channels

/-- The feature keys recorded by `MobileOne.__init__`, in insertion order:
`STEM_S2` after the stem, then one `BLOCK{i}_S{stride}` per stage. -/
def assembleFeatureKeys (num_blocks num_channels : List ℕ) : List String :=
  "STEM_S2" :: stagesFeatures (num_channels.zip num_blocks) 0 2

/-- The error raised by `MobileOne.__init__`.  `incompatibleRequest` is the
`ValueError` for pretrained weights together with `reparameterized=True`;
`invalidTopology` is listed so that a construction-time topology error is
statable (the constructor never raises it). -/
inductive InitError where
  | incompatibleRequest
  | invalidTopology
deriving DecidableEq

/-- The configuration dictionary of a MobileOne model
(`MobileOne.get_config`): the five explicit entries plus the `weights`
entry inherited from the base model's configuration (the base class is
external; only the `weights` entry, which `get_reparameterized_model`
overwrites, is modelled). -/
structure ModelConfig where
  num_blocks : List ℕ
  num_channels : List ℕ
  stem_channels : ℕ
  branch_size : ℕ
  reparameterized : Bool
  weights : Option String
deriving DecidableEq

/-- The observable outcome of `MobileOne.__init__`: the unit sequence, the
feature keys and the stored configuration. -/
structure AssembledModel where
  units : List UnitCfg
  featureKeys : List String
  config : ModelConfig
deriving DecidableEq

/-- `MobileOne.__init__`: first the compatibility check on
`kwargs["weights"]` and `reparameterized` (raised before anything is
assembled), then the stem, the stages and the feature bookkeeping. -/
def mobileOneInit (num_blocks num_channels : List ℕ) (stem_channels branch_size : ℕ)
    (reparameterized : Bool) (weights : Option String) :
    Except InitError AssembledModel :=
  if weights ≠ none ∧ reparameterized = true then
    .error .incompatibleRequest
  else
    .ok { units := assembleUnits num_blocks num_channels stem_channels branch_size reparameterized
          featureKeys := assembleFeatureKeys num_blocks num_channels
          config := { num_blocks := num_blocks, num_channels := num_channels,
                      stem_channels := stem_channels, branch_size := branch_size,
                      reparameterized := reparameterized, weights := weights } }

/-- Whether an `Except` result is a success. -/
def isOkExcept {ε α : Type} : Except ε α → Bool
  | .ok _ => true
  | .error _ => false

/-- The mode-independent fields of a unit: everything except the
`reparameterized` flag. -/
def staticFields (u : UnitCfg) :
    ℕ × ℕ × ℕ × ℕ × Bool × Bool × Bool × ℕ × String :=
  (u.inC, u.filters, u.kernelSize, u.strides, u.hasSkip, u.hasScale,
   u.useDepthwise, u.branchSize, u.name)

/-! ### Part 3: the weight transfer of `get_reparameterized_model` -/

/-- One layer of a built model as seen by `get_reparameterized_model`:
either a reparameterizable convolution (it has
`get_reparameterized_weights`; `fused` is the kernel/bias slot of its
`reparameterized_conv2d`, present in the inference variant) or a plain
layer with a flat list of weights. -/
inductive Layer where
  | reparam (bs : BranchSet) (fused : Option AffineOperator)
  | plain (ws : List ℚ)

/-- Modelled from the spec: `get_reparameterized_weights` of the external
`ReparameterizableConv2D` runs the fusion engine on the layer's branch
set. -/
def getReparameterizedWeights (bs : BranchSet) : Option AffineOperator := fuse bs

/-- One iteration of the transfer loop: a reparameterizable source layer
has its branches fused and the result assigned into the target's fused
convolution; a plain source layer has its weights copied elementwise over
`zip(layer.weights, rep_layer.weights)` (entries of the target beyond the
zip are untouched).  A kind mismatch between the paired layers fails. -/
def transferPair : Layer → Layer → Option Layer
  | .reparam bs _, .reparam bs' _ =>
    (fuse bs).map (fun A => Layer.reparam bs' (some A))
  | .plain ws, .plain ws' => some (.plain (ws.take ws'.length ++ ws'.drop ws.length))
  | _, _ => none

/-- The transfer loop over `zip(self.layers, model.layers)`: processes the
pairs in order and aborts at the first failure. -/
def transferZipped : List (Layer × Layer) → Option (List Layer)
  | [] => some []
  | (s, t) :: rest =>
    match transferPair s t, transferZipped rest with
    | some t', some rest' => some (t' :: rest')
    | _, _ => none

/-- A built model: its configuration and its layers. -/
structure ModelState where
  config : ModelConfig
  layers : List Layer

/-- `MobileOne.get_reparameterized_model`: copies the source configuration
with `reparameterized := true` and `weights := none`, constructs a fresh
model from it (`fresh` stands for the freshly initialized layers of
`MobileOne(**config)`, whose construction is external), then runs the
transfer loop over the zipped layer lists.  Layers of the fresh model
beyond the zip are left as initialized. -/
def getReparameterizedModel (src : ModelState) (fresh : List Layer) :
    Option ModelState :=
  (transferZipped (src.layers.zip fresh)).map
    (fun ls =>
      { config := { src.config with reparameterized := true, weights := none },
        layers := ls ++ fresh.drop src.layers.length })

/-! ### Concrete instances used by the witnesses -/

/-- A 3×3 branch with a normalization step. -/
def wBranch : AffineOperator :=
  { inC := 1, outC := 1, k := 3, stride := 1,
    kernel := fun _ _ _ _ => 1, bias := fun _ => 2,
    hasNorm := true, normScale := fun _ => 2, normShift := fun _ => 1 }

/-- A 1×1 branch without normalization. -/
def wBranch2 : AffineOperator :=
  { inC := 1, outC := 1, k := 1, stride := 1,
    kernel := fun _ _ _ _ => 3, bias := fun _ => 1,
    hasNorm := false, normScale := fun _ => 1, normShift := fun _ => 0 }

/-- A two-branch branch set with a skip path. -/
def wBS : BranchSet :=
  { inC := 1, outC := 1, stride := 1, branches := [wBranch, wBranch2],
    hasSkip := true, skipScale := fun _ => 3, skipShift := fun _ => 5 }

/-- A concrete input tensor. -/
def wX : Tensor := fun c i j => (c : ℚ) + (i : ℚ) + 2 * (j : ℚ)

/-- A single-branch branch set with a skip path (skip invariant witness). -/
def wBS9 : BranchSet :=
  { inC := 2, outC := 2, stride := 1, branches := [wBranch2],
    hasSkip := true, skipScale := fun _ => 1, skipShift := fun _ => 0 }

/-- The pointwise unit of the first block of a one-stage model with
`num_channels = [48]` and `stem_channels = 48` (its skip path is enabled). -/
def wUnit : UnitCfg :=
  { inC := 48, filters := 48, kernelSize := 1, strides := 1,
    hasSkip := true, hasScale := false, useDepthwise := false,
    branchSize := 1, reparameterized := false, name := "stages_0_1" }

/-- A source model with one plain layer (weight-transfer witness). -/
def wSrcModel : ModelState :=
  { config := { num_blocks := [1], num_channels := [2], stem_channels := 3,
                branch_size := 4, reparameterized := false,
                weights := some "imagenet" },
    layers := [Layer.plain [1, 2]] }

/-- The model obtained by reparameterizing `wSrcModel` against one fresh
plain layer. -/
def wRepModel : ModelState :=
  { config := { num_blocks := [1], num_channels := [2], stem_channels := 3,
                branch_size := 4, reparameterized := true, weights := none },
    layers := [Layer.plain [1, 2]] }

/-! ### Lemmas about the fusion engine -/

theorem foldNorm_inC (A : AffineOperator) : (foldNorm A).inC = A.inC := by
  unfold foldNorm; split <;> rfl

theorem foldNorm_k (A : AffineOperator) : (foldNorm A).k = A.k := by
  unfold foldNorm; split <;> rfl

theorem foldNorm_stride (A : AffineOperator) : (foldNorm A).stride = A.stride := by
  unfold foldNorm; split <;> rfl

/-- Folding the normalization into the convolution preserves the operator's
output exactly. -/
theorem applyConv_foldNorm (A : AffineOperator) (x : Tensor) (o : ℕ) (i j : ℤ) :
    applyConv (foldNorm A) x o i j = applyOp A x o i j := by
  cases hA : A.hasNorm with
  | false => simp [foldNorm, applyOp, hA]
  | true =>
    simp only [foldNorm, applyOp, hA, if_true, applyConv, Finset.mul_sum, mul_add,
      mul_assoc]
    ring

/-- Summing over the padded range `[0, K)` equals summing the shifted
function over `[0, k)` when the function vanishes outside the centered
window. -/
theorem sum_shift (k K off : ℕ) (h : off + k ≤ K) (f : ℕ → ℚ)
    (hf : ∀ p, p < off ∨ off + k ≤ p → f p = 0) :
    ∑ p ∈ Finset.range K, f p = ∑ p ∈ Finset.range k, f (off + p) := by
  have h1 : ∑ p ∈ Finset.Ico off (off + k), f p = ∑ p ∈ Finset.range k, f (off + p) := by
    rw [Finset.sum_Ico_eq_sum_range]
    simp
  rw [← h1]
  symm
  apply Finset.sum_subset
  · intro p hp
    simp only [Finset.mem_Ico, Finset.mem_range] at *
    omega
  · intro p hp hnp
    apply hf
    simp only [Finset.mem_Ico, Finset.mem_range] at hp hnp
    omega

/-- Zero-padding a kernel of odd size to a larger odd size, centered,
preserves the operator's output exactly. -/
theorem applyConv_padTo (K : ℕ) (A : AffineOperator) (hk : A.k ≤ K)
    (hodd : A.k % 2 = 1) (hK : K % 2 = 1) (x : Tensor) (o : ℕ) (i j : ℤ) :
    applyConv (padTo K A) x o i j = applyConv A x o i j := by
  simp only [applyConv, padTo]
  congr 1
  apply Finset.sum_congr rfl
  intro c _
  rw [sum_shift A.k K ((K - A.k) / 2) (by omega)]
  · apply Finset.sum_congr rfl
    intro p hp
    simp only [Finset.mem_range] at hp
    rw [sum_shift A.k K ((K - A.k) / 2) (by omega)]
    · apply Finset.sum_congr rfl
      intro q hq
      simp only [Finset.mem_range] at hq
      rw [if_pos (by omega)]
      congr 2
      · omega
      · omega
      · simp only [center]
        have h2 : ((((K - A.k) / 2 + p : ℕ) : ℤ)) - (((K - 1) / 2 : ℕ) : ℤ) =
            ((p : ℕ) : ℤ) - (((A.k - 1) / 2 : ℕ) : ℤ) := by omega
        linarith [h2]
      · simp only [center]
        have h2 : ((((K - A.k) / 2 + q : ℕ) : ℤ)) - (((K - 1) / 2 : ℕ) : ℤ) =
            ((q : ℕ) : ℤ) - (((A.k - 1) / 2 : ℕ) : ℤ) := by omega
        linarith [h2]
    · intro q hq
      rw [if_neg (by omega)]
      ring
  · intro p hp
    apply Finset.sum_eq_zero
    intro q _
    rw [if_neg (by omega)]
    ring

/-- The synthesized identity operator reproduces the normalized skip path:
scale times the input plus shift, at every valid output channel. -/
theorem applyOp_identityOp (bs : BranchSet) (x : Tensor) (o : ℕ)
    (ho : o < bs.inC) (i j : ℤ) :
    applyOp (identityOp bs) x o i j = bs.skipScale o * x o i j + bs.skipShift o := by
  have hconv : applyConv (identityOp bs) x o i j = x o i j := by
    simp only [applyConv, identityOp, Finset.sum_range_one, center]
    have hx : ∀ c : ℕ,
        x c ((1 : ℕ) * i + ((0 : ℕ) : ℤ) - (((1 - 1) / 2 : ℕ) : ℤ))
          ((1 : ℕ) * j + ((0 : ℕ) : ℤ) - (((1 - 1) / 2 : ℕ) : ℤ)) = x c i j := by
      intro c
      norm_num
    simp only [hx]
    rw [Finset.sum_congr rfl (fun c _ => by
      rw [ite_mul, one_mul, zero_mul] :
        ∀ c ∈ Finset.range bs.inC, (if c = o then (1 : ℚ) else 0) * x c i j
          = if c = o then x c i j else 0)]
    rw [Finset.sum_ite_eq' (Finset.range bs.inC) o (fun c => x c i j)]
    rw [if_pos (Finset.mem_range.mpr ho)]
    ring
  simp only [applyOp]
  rw [show (identityOp bs).hasNorm = true from rfl, if_pos rfl, hconv]
  rfl

/-- The convolution of an elementwise sum of same-shape operators is the
sum of the individual convolutions. -/
theorem applyConv_sumOps (x : Tensor) (o : ℕ) (i j : ℤ) (inC outC K stride : ℕ) :
    ∀ l : List AffineOperator,
      (∀ A ∈ l, A.inC = inC ∧ A.k = K ∧ A.stride = stride) →
      applyConv (sumOps inC outC K stride l) x o i j
        = (l.map (fun A => applyConv A x o i j)).sum := by
  intro l
  induction l with
  | nil =>
    intro _
    simp [applyConv, sumOps]
  | cons A l ih =>
    intro h
    obtain ⟨h1, h2, h3⟩ := h A (List.mem_cons_self _ _)
    have hl := fun B hB => h B (List.mem_cons_of_mem _ hB)
    rw [List.map_cons, List.sum_cons, ← ih hl]
    simp only [applyConv, sumOps, List.map_cons, List.sum_cons, add_mul,
      Finset.sum_add_distrib]
    rw [h1, h2, h3]
    ring

/-- Every member of a list is bounded by `foldr max 1`. -/
theorem le_foldr_max (l : List ℕ) : ∀ a ∈ l, a ≤ l.foldr max 1 := by
  induction l with
  | nil => simp
  | cons b l ih =>
    intro a ha
    rcases List.mem_cons.mp ha with h | h
    · subst h
      exact le_max_left _ _
    · exact le_trans (ih a h) (le_max_right _ _)

/-- `foldr max 1` is at least 1. -/
theorem one_le_foldr_max (l : List ℕ) : 1 ≤ l.foldr max 1 := by
  induction l with
  | nil => simp
  | cons b l ih => exact le_trans ih (le_max_right _ _)

/-- `foldr max 1` of a list of odd numbers is odd. -/
theorem foldr_max_odd (l : List ℕ) (h : ∀ a ∈ l, a % 2 = 1) :
    (l.foldr max 1) % 2 = 1 := by
  induction l with
  | nil => simp
  | cons b l ih =>
    simp only [List.foldr_cons]
    have hb := h b (List.mem_cons_self _ _)
    have hl := ih (fun a ha => h a (List.mem_cons_of_mem _ ha))
    rcases max_choice b (l.foldr max 1) with hm | hm <;> rw [hm]
    · exact hb
    · exact hl

theorem padTo_inC (K : ℕ) (A : AffineOperator) : (padTo K A).inC = A.inC := rfl

theorem padTo_k (K : ℕ) (A : AffineOperator) : (padTo K A).k = K := rfl

theorem padTo_stride (K : ℕ) (A : AffineOperator) : (padTo K A).stride = A.stride := rfl

/-- Inversion of a successful fusion: the skip guard holds and the result
is the sum of the folded, padded paths. -/
theorem fuse_some_inv (bs : BranchSet) (F : AffineOperator) (hF : fuse bs = some F) :
    ¬(bs.hasSkip = true ∧ (bs.inC ≠ bs.outC ∨ bs.stride ≠ 1)) ∧
    F = sumOps bs.inC bs.outC (maxK bs) bs.stride
      ((allOps bs).map (fun A => padTo (maxK bs) (foldNorm A))) := by
  unfold fuse at hF
  rcases hbs : bs.branches with _ | ⟨B, rest⟩ <;> rw [hbs] at hF
  · exact Option.noConfusion hF
  · have hF2 : (if bs.hasSkip = true ∧ (bs.inC ≠ bs.outC ∨ bs.stride ≠ 1) then none
        else some (sumOps bs.inC bs.outC (maxK bs) bs.stride
          ((allOps bs).map (fun A => padTo (maxK bs) (foldNorm A))))) = some F := hF
    by_cases hguard : bs.hasSkip = true ∧ (bs.inC ≠ bs.outC ∨ bs.stride ≠ 1)
    · rw [if_pos hguard] at hF2
      exact Option.noConfusion hF2
    · rw [if_neg hguard] at hF2
      exact ⟨hguard, (Option.some.inj hF2).symm⟩

/-- C1: for every branch set whose branches agree with it on input channels
and stride (the branch-set invariant) and have odd kernel sizes, the fused
operator computes exactly the same output as the branch set on every input
tensor, at every valid output channel and position.  Over the exact
rational arithmetic of this model the agreement is equality, which implies
agreement within any floating-point tolerance; `fuse` is a pure function,
hence deterministic. -/
theorem fuse_equivalent (bs : BranchSet) (F : AffineOperator)
    (hF : fuse bs = some F)
    (hbr : ∀ A ∈ bs.branches, A.inC = bs.inC ∧ A.stride = bs.stride)
    (hodd : ∀ A ∈ bs.branches, A.k % 2 = 1)
    (x : Tensor) (o : ℕ) (ho : o < bs.outC) (i j : ℤ) :
    applyOp F x o i j = applyBranchSet bs x o i j := by
  obtain ⟨hguard, rfl⟩ := fuse_some_inv bs F hF
  have hvalid : bs.hasSkip = true → bs.inC = bs.outC ∧ bs.stride = 1 := by
    intro hs
    by_contra hcon
    exact hguard ⟨hs, not_and_or.mp hcon⟩
  have hKodd : (maxK bs) % 2 = 1 := by
    apply foldr_max_odd
    intro a ha
    rw [List.mem_map] at ha
    obtain ⟨A, hA, rfl⟩ := ha
    exact hodd A hA
  have hmem : ∀ B0 ∈ allOps bs,
      B0 ∈ bs.branches ∨ (bs.hasSkip = true ∧ B0 = identityOp bs ∧ bs.stride = 1) := by
    intro B0 hB0
    simp only [allOps] at hB0
    rcases List.mem_append.mp hB0 with h | h
    · exact Or.inl h
    · cases hsk : bs.hasSkip
      · rw [hsk] at h
        simp at h
      · rw [hsk] at h
        simp at h
        exact Or.inr ⟨rfl, h, (hvalid hsk).2⟩
  have hfields : ∀ A ∈ (allOps bs).map (fun A => padTo (maxK bs) (foldNorm A)),
      A.inC = bs.inC ∧ A.k = maxK bs ∧ A.stride = bs.stride := by
    intro A hA
    obtain ⟨B0, hB0, rfl⟩ := List.mem_map.mp hA
    rcases hmem B0 hB0 with h | ⟨_, rfl, hst1⟩
    · exact ⟨by rw [padTo_inC, foldNorm_inC]; exact (hbr B0 h).1,
        by rw [padTo_k],
        by rw [padTo_stride, foldNorm_stride]; exact (hbr B0 h).2⟩
    · refine ⟨by rw [padTo_inC, foldNorm_inC]; rfl, by rw [padTo_k], ?_⟩
      rw [padTo_stride, foldNorm_stride]
      exact hst1.symm
  have h1 : applyOp (sumOps bs.inC bs.outC (maxK bs) bs.stride
        ((allOps bs).map (fun A => padTo (maxK bs) (foldNorm A)))) x o i j
      = applyConv (sumOps bs.inC bs.outC (maxK bs) bs.stride
        ((allOps bs).map (fun A => padTo (maxK bs) (foldNorm A)))) x o i j := by
    simp only [applyOp]
    rw [show (sumOps bs.inC bs.outC (maxK bs) bs.stride
      ((allOps bs).map (fun A => padTo (maxK bs) (foldNorm A)))).hasNorm = false from rfl]
    simp
  rw [h1, applyConv_sumOps x o i j bs.inC bs.outC (maxK bs) bs.stride _ hfields]
  have hmapeq : ((allOps bs).map (fun A => padTo (maxK bs) (foldNorm A))).map
        (fun A => applyConv A x o i j)
      = (allOps bs).map (fun A => applyOp A x o i j) := by
    rw [List.map_map]
    apply List.map_congr_left
    intro A hA
    simp only [Function.comp]
    have hKA : (foldNorm A).k ≤ maxK bs ∧ (foldNorm A).k % 2 = 1 := by
      rw [foldNorm_k]
      rcases hmem A hA with h | ⟨_, rfl, _⟩
      · exact ⟨le_foldr_max _ _ (List.mem_map_of_mem _ h), hodd A h⟩
      · exact ⟨one_le_foldr_max _, by norm_num [identityOp]⟩
    rw [applyConv_padTo (maxK bs) (foldNorm A) hKA.1 hKA.2 hKodd]
    rw [applyConv_foldNorm]
  rw [hmapeq]
  simp only [allOps, List.map_append, List.sum_append, applyBranchSet]
  congr 1
  cases hsk : bs.hasSkip
  · simp
  · simp
    rw [applyOp_identityOp bs x o (by rw [(hvalid hsk).1]; exact ho) i j]

/-- Witness for `fuse_equivalent`: a concrete two-branch branch set with a
skip path, evaluated at a concrete tensor and position. -/
theorem fuse_equivalent_witness :
    applyOp (sumOps wBS.inC wBS.outC (maxK wBS) wBS.stride
        ((allOps wBS).map (fun A => padTo (maxK wBS) (foldNorm A)))) wX 0 0 0
      = applyBranchSet wBS wX 0 0 0 :=
  fuse_equivalent wBS _ rfl
    (by
      intro A hA
      simp only [wBS, List.mem_cons, List.not_mem_nil, or_false] at hA
      rcases hA with rfl | rfl
      · exact ⟨rfl, rfl⟩
      · exact ⟨rfl, rfl⟩)
    (by
      intro A hA
      simp only [wBS, List.mem_cons, List.not_mem_nil, or_false] at hA
      rcases hA with rfl | rfl
      · rfl
      · rfl)
    wX 0 (by norm_num [wBS]) 0 0

/-! ### Claims about the constructor and assembler -/

/-- C2: requesting construction with a non-null pretrained-weights
descriptor together with `reparameterized = true` fails with
`incompatibleRequest`, whatever the topology arguments are (the check
precedes all assembly); the same weights descriptor with
`reparameterized = false` passes the check and construction succeeds. -/
theorem init_rejects_weights_when_reparameterized (nb nc : List ℕ) (sc bsz : ℕ)
    (w : String) (w' : Option String) :
    mobileOneInit nb nc sc bsz true (some w) = .error .incompatibleRequest ∧
    isOkExcept (mobileOneInit nb nc sc bsz false w') = true := by
  constructor
  · simp [mobileOneInit]
  · simp [mobileOneInit, isOkExcept]

/-- After the first block pair of a stage the block index is positive and
the channel count is `c`: every remaining pair is a stride-1 depthwise unit
with skip followed by a stride-1 pointwise unit with skip, both at width
`c`. -/
theorem blocksGo_tail (si bsz : ℕ) (rep : Bool) (c : ℕ) :
    ∀ n m : ℕ,
      blocksGo si bsz rep c n (2 * (m + 1)) c =
        (((List.range n).map (fun j =>
          [ { inC := c, filters := c, kernelSize := 3, strides := 1,
              hasSkip := true, hasScale := true, useDepthwise := true,
              branchSize := bsz, reparameterized := rep,
              name := "stages_" ++ toString si ++ "_" ++ toString (2 * (m + 1 + j)) },
            { inC := c, filters := c, kernelSize := 1, strides := 1,
              hasSkip := true, hasScale := false, useDepthwise := false,
              branchSize := bsz, reparameterized := rep,
              name := "stages_" ++ toString si ++ "_" ++
                toString (2 * (m + 1 + j) + 1) } ])).flatten,
         c) := by
  intro n
  induction n with
  | zero =>
    intro m
    simp [blocksGo]
  | succ n ih =>
    intro m
    have h2 : ¬(2 * (m + 1) = 0) := by omega
    have h3 : 2 * (m + 1) + 2 = 2 * (m + 1 + 1) := by ring
    simp only [blocksGo, h3, ih (m + 1)]
    rw [List.range_succ_eq_map, List.map_cons, List.flatten_cons, List.map_map]
    simp only [List.cons_append, List.nil_append, Prod.mk.injEq]
    refine ⟨?_, trivial⟩
    norm_num
    apply congrArg List.flatten
    apply List.map_congr_left
    intro j _
    simp only [Function.comp, Nat.succ_eq_add_one]
    rw [show m + 1 + (j + 1) = m + 1 + 1 + j from by omega]

/-- C3: for every stage with channel width `c` and block count `n > 0`,
the block loop emits exactly `n` block pairs: the first pair is a stride-2
depthwise unit (no skip, width preserved) followed by the stride-1
channel-expanding pointwise unit (skip iff `ic = c`, no normalization
scale); the `n - 1` remaining pairs use stride 1 throughout, with skip
enabled on both units, the running channel count having become `c`; the
final channel count is `c`. -/
theorem stage_block_structure (si bsz : ℕ) (rep : Bool) (c ic n : ℕ) (hn : 0 < n) :
    blocksGo si bsz rep c n 0 ic =
      ({ inC := ic, filters := ic, kernelSize := 3, strides := 2,
         hasSkip := false, hasScale := true, useDepthwise := true,
         branchSize := bsz, reparameterized := rep,
         name := "stages_" ++ toString si ++ "_" ++ toString 0 } ::
       { inC := ic, filters := c, kernelSize := 1, strides := 1,
         hasSkip := decide (ic = c), hasScale := false, useDepthwise := false,
         branchSize := bsz, reparameterized := rep,
         name := "stages_" ++ toString si ++ "_" ++ toString 1 } ::
       ((List.range (n - 1)).map (fun j =>
         [ { inC := c, filters := c, kernelSize := 3, strides := 1,
             hasSkip := true, hasScale := true, useDepthwise := true,
             branchSize := bsz, reparameterized := rep,
             name := "stages_" ++ toString si ++ "_" ++ toString (2 * (j + 1)) },
           { inC := c, filters := c, kernelSize := 1, strides := 1,
             hasSkip := true, hasScale := false, useDepthwise := false,
             branchSize := bsz, reparameterized := rep,
             name := "stages_" ++ toString si ++ "_" ++
               toString (2 * (j + 1) + 1) } ])).flatten,
       c) := by
  obtain ⟨n0, rfl⟩ : ∃ n0, n = n0 + 1 := ⟨n - 1, by omega⟩
  simp only [blocksGo]
  rw [show (0 : ℕ) + 2 = 2 * (0 + 1) from rfl]
  rw [blocksGo_tail si bsz rep c n0 0]
  simp only [Nat.add_sub_cancel, Prod.mk.injEq]
  refine ⟨?_, trivial⟩
  norm_num
  apply congrArg List.flatten
  apply List.map_congr_left
  intro j _
  rw [show 0 + 1 + j = j + 1 from by omega]

/-- Witness for `stage_block_structure`: a stage with width 5, two blocks,
entered at 3 channels. -/
theorem stage_block_structure_witness :
    blocksGo 0 4 false 5 2 0 3 =
      ([ { inC := 3, filters := 3, kernelSize := 3, strides := 2,
           hasSkip := false, hasScale := true, useDepthwise := true,
           branchSize := 4, reparameterized := false, name := "stages_0_0" },
         { inC := 3, filters := 5, kernelSize := 1, strides := 1,
           hasSkip := false, hasScale := false, useDepthwise := false,
           branchSize := 4, reparameterized := false, name := "stages_0_1" },
         { inC := 5, filters := 5, kernelSize := 3, strides := 1,
           hasSkip := true, hasScale := true, useDepthwise := true,
           branchSize := 4, reparameterized := false, name := "stages_0_2" },
         { inC := 5, filters := 5, kernelSize := 1, strides := 1,
           hasSkip := true, hasScale := false, useDepthwise := false,
           branchSize := 4, reparameterized := false, name := "stages_0_3" } ],
       5) :=
  stage_block_structure 0 4 false 5 3 2 (by decide)

/-- C4: for `num_blocks = [2, 8, 10, 1]`, `num_channels =
[48, 128, 256, 1024]`, `stem_channels = 48`, the constructed model's
feature keys, in insertion order, are exactly `STEM_S2, BLOCK0_S4,
BLOCK1_S8, BLOCK2_S16, BLOCK3_S32`, and they are pairwise distinct. -/
theorem feature_keys_s0 :
    (mobileOneInit [2, 8, 10, 1] [48, 128, 256, 1024] 48 4 false none).map
        (fun m => m.featureKeys)
      = .ok ["STEM_S2", "BLOCK0_S4", "BLOCK1_S8", "BLOCK2_S16", "BLOCK3_S32"]
    ∧ (assembleFeatureKeys [2, 8, 10, 1] [48, 128, 256, 1024]).Nodup :=
  ⟨rfl, by decide⟩

/-- The static topology of the block loop does not depend on the mode
flag, and neither does the threaded channel count. -/
theorem blocksGo_static (si bsz c : ℕ) (r₁ r₂ : Bool) :
    ∀ n bi ic,
      (blocksGo si bsz r₁ c n bi ic).1.map staticFields
        = (blocksGo si bsz r₂ c n bi ic).1.map staticFields
      ∧ (blocksGo si bsz r₁ c n bi ic).2 = (blocksGo si bsz r₂ c n bi ic).2 := by
  intro n
  induction n with
  | zero =>
    intro bi ic
    exact ⟨rfl, rfl⟩
  | succ n ih =>
    intro bi ic
    simp only [blocksGo, List.map_cons]
    exact ⟨by rw [(ih (bi + 2) c).1]; rfl, (ih (bi + 2) c).2⟩

/-- The static topology of the stage loop does not depend on the mode
flag. -/
theorem stagesUnits_static (bsz : ℕ) (r₁ r₂ : Bool) :
    ∀ (stages : List (ℕ × ℕ)) (si ic : ℕ),
      (stagesUnits bsz r₁ stages si ic).map staticFields
        = (stagesUnits bsz r₂ stages si ic).map staticFields := by
  intro stages
  induction stages with
  | nil =>
    intro si ic
    rfl
  | cons p rest ih =>
    intro si ic
    obtain ⟨c, n⟩ := p
    simp only [stagesUnits, List.map_append]
    rw [(blocksGo_static si bsz c r₁ r₂ n 0 ic).1,
      (blocksGo_static si bsz c r₁ r₂ n 0 ic).2, ih]

/-- C5: assembling with the same hyperparameters in training mode
(`reparameterized = false`) and in inference mode (`reparameterized =
true`) yields unit sequences of equal length whose static topology fields
(input channels, filters, kernel size, stride, skip flag, scale flag,
depthwise flag, branch size, name) agree at every index; only the
`reparameterized` flag differs. -/
theorem assemble_topology_deterministic (nb nc : List ℕ) (sc bsz : ℕ) (r₁ r₂ : Bool) :
    (assembleUnits nb nc sc bsz r₁).map staticFields
      = (assembleUnits nb nc sc bsz r₂).map staticFields
    ∧ (assembleUnits nb nc sc bsz r₁).length = (assembleUnits nb nc sc bsz r₂).length := by
  have h : (assembleUnits nb nc sc bsz r₁).map staticFields
      = (assembleUnits nb nc sc bsz r₂).map staticFields := by
    simp only [assembleUnits, List.map_cons]
    rw [stagesUnits_static bsz r₁ r₂]
    rfl
  refine ⟨h, ?_⟩
  have := congrArg List.length h
  simpa using this

/-- Zipping is unchanged by taking at least `min` of both lengths from both
lists. -/
theorem zip_eq_zip_take {α β : Type} :
    ∀ (l₁ : List α) (l₂ : List β) (k : ℕ), min l₁.length l₂.length ≤ k →
      l₁.zip l₂ = (l₁.take k).zip (l₂.take k) := by
  intro l₁
  induction l₁ with
  | nil =>
    intro l₂ k _
    simp
  | cons a l₁ ih =>
    intro l₂ k h
    cases l₂ with
    | nil => simp [List.zip_nil_right]
    | cons b l₂ =>
      cases k with
      | zero =>
        simp only [List.length_cons] at h
        omega
      | succ k =>
        simp only [List.zip_cons_cons, List.take_succ_cons]
        rw [← ih l₂ k (by simp only [List.length_cons] at h; omega)]

/-- C6 counterexample: constructing with `num_blocks = [2]` and
`num_channels = [48, 128]` (mismatched lengths) succeeds — no construction
error of any kind is raised. -/
theorem length_mismatch_not_rejected :
    isOkExcept (mobileOneInit [2] [48, 128] 48 1 false none) = true := rfl

/-- C6 amended: when the stage channel-width sequence and the block-count
sequence have different lengths, construction does not fail; the assembler
silently iterates over `zip(num_channels, num_blocks)`, i.e. it builds
exactly the stages (and feature keys) of the two sequences truncated to
the shorter length. -/
theorem assemble_uses_zip_truncation (nb nc : List ℕ) (sc bsz : ℕ) (rep : Bool) :
    assembleUnits nb nc sc bsz rep
      = assembleUnits (nb.take (min nb.length nc.length))
          (nc.take (min nb.length nc.length)) sc bsz rep
    ∧ assembleFeatureKeys nb nc
      = assembleFeatureKeys (nb.take (min nb.length nc.length))
          (nc.take (min nb.length nc.length)) := by
  have hz : nc.zip nb
      = (nc.take (min nb.length nc.length)).zip (nb.take (min nb.length nc.length)) :=
    zip_eq_zip_take nc nb _ (by omega)
  constructor
  · simp only [assembleUnits]
    rw [hz]
  · simp only [assembleFeatureKeys]
    rw [hz]

/-- Every unit emitted by the block loop satisfies the skip invariant:
a skip path implies equal input and output channels and stride 1. -/
theorem blocksGo_skip (si bsz c : ℕ) (rep : Bool) :
    ∀ n bi ic, ∀ u ∈ (blocksGo si bsz rep c n bi ic).1,
      u.hasSkip = true → u.inC = u.filters ∧ u.strides = 1 := by
  intro n
  induction n with
  | zero =>
    intro bi ic u hu
    simp [blocksGo] at hu
  | succ n ih =>
    intro bi ic u hu hskip
    simp only [blocksGo, List.mem_cons] at hu
    rcases hu with rfl | rfl | hu
    · exact ⟨rfl, of_decide_eq_true hskip⟩
    · exact ⟨of_decide_eq_true hskip, rfl⟩
    · exact ih (bi + 2) c u hu hskip

/-- The skip invariant holds across all stages. -/
theorem stagesUnits_skip (bsz : ℕ) (rep : Bool) :
    ∀ (stages : List (ℕ × ℕ)) (si ic : ℕ),
      ∀ u ∈ stagesUnits bsz rep stages si ic,
        u.hasSkip = true → u.inC = u.filters ∧ u.strides = 1 := by
  intro stages
  induction stages with
  | nil =>
    intro si ic u hu
    simp [stagesUnits] at hu
  | cons p rest ih =>
    intro si ic u hu hskip
    obtain ⟨c, n⟩ := p
    simp only [stagesUnits] at hu
    rcases List.mem_append.mp hu with h | h
    · exact blocksGo_skip si bsz c rep n 0 ic u h hskip
    · exact ih (si + 1) _ u h hskip

/-- C9: every unit assembled with a skip path has equal input and output
channels and stride 1 (depthwise units preserve width and enable skip
exactly on stride 1; pointwise units always use stride 1 and enable skip
exactly when the width is already the stage width; the stem has no skip);
consequently the fusion engine's invalid-skip error branch cannot fire on
a branch set satisfying this invariant. -/
theorem assembled_skip_valid :
    (∀ (nb nc : List ℕ) (sc bsz : ℕ) (rep : Bool),
        ∀ u ∈ assembleUnits nb nc sc bsz rep,
          u.hasSkip = true → u.inC = u.filters ∧ u.strides = 1)
    ∧ (∀ bs : BranchSet, bs.branches ≠ [] →
        (bs.hasSkip = true → bs.inC = bs.outC ∧ bs.stride = 1) →
        (fuse bs).isSome = true) := by
  constructor
  · intro nb nc sc bsz rep u hu hskip
    simp only [assembleUnits, List.mem_cons] at hu
    rcases hu with rfl | hu
    · simp at hskip
    · exact stagesUnits_skip bsz rep _ 0 sc u hu hskip
  · intro bs hne hinv
    unfold fuse
    rcases hbs : bs.branches with _ | ⟨B, rest⟩
    · exact absurd hbs hne
    · have hguard : ¬(bs.hasSkip = true ∧ (bs.inC ≠ bs.outC ∨ bs.stride ≠ 1)) := by
        rintro ⟨hs, hor⟩
        rcases hinv hs with ⟨h1, h2⟩
        rcases hor with h | h
        · exact h h1
        · exact h h2
      show (if bs.hasSkip = true ∧ (bs.inC ≠ bs.outC ∨ bs.stride ≠ 1) then none
        else some (sumOps bs.inC bs.outC (maxK bs) bs.stride
          ((allOps bs).map (fun A => padTo (maxK bs) (foldNorm A))))).isSome = true
      rw [if_neg hguard]
      rfl

/-- Witness for `assembled_skip_valid`: the skip-enabled pointwise unit of
a one-stage model, and a concrete branch set satisfying the invariant. -/
theorem assembled_skip_valid_witness :
    (wUnit.inC = wUnit.filters ∧ wUnit.strides = 1) ∧ (fuse wBS9).isSome = true :=
  ⟨assembled_skip_valid.1 [1] [48] 48 1 false wUnit (by decide) rfl,
   assembled_skip_valid.2 wBS9 (by simp [wBS9]) (fun _ => ⟨rfl, rfl⟩)⟩

/-! ### Claims about the weight transfer -/

/-- C7: when the transfer loop succeeds, the target layer at every index
`i` is determined by the source/target pair at the same index — the
pairing is strictly lock-step: a reparameterizable (fusable) source layer
yields the fusion engine's kernel and bias assigned into the target's
fused convolution, and a plain source layer yields an elementwise copy of
its weights over the target's. -/
theorem transfer_pairwise :
    ∀ (l : List (Layer × Layer)) (out : List Layer),
      transferZipped l = some out →
      ∀ (i : ℕ) (s t : Layer), l[i]? = some (s, t) →
        out[i]? = (match s, t with
          | .reparam bs _, .reparam bs' _ =>
            (fuse bs).map (fun A => Layer.reparam bs' (some A))
          | .plain ws, .plain ws' =>
            some (.plain (ws.take ws'.length ++ ws'.drop ws.length))
          | _, _ => none) := by
  intro l
  induction l with
  | nil =>
    intro out _ i s t hi
    simp at hi
  | cons p rest ih =>
    intro out h i s t hi
    obtain ⟨s0, t0⟩ := p
    simp only [transferZipped] at h
    cases h1 : transferPair s0 t0 with
    | none =>
      rw [h1] at h
      exact Option.noConfusion h
    | some t' =>
      cases h2 : transferZipped rest with
      | none =>
        rw [h1, h2] at h
        exact Option.noConfusion h
      | some out' =>
        rw [h1, h2] at h
        have hout : out = t' :: out' := (Option.some.inj h).symm
        subst hout
        cases i with
        | zero =>
          simp only [List.getElem?_cons_zero] at hi
          have hst := Option.some.inj hi
          obtain ⟨rfl, rfl⟩ : s0 = s ∧ t0 = t :=
            ⟨congrArg Prod.fst hst, congrArg Prod.snd hst⟩
          simp only [List.getElem?_cons_zero]
          rw [← h1]
          cases s0 <;> cases t0 <;> rfl
        | succ i =>
          simp only [List.getElem?_cons_succ] at hi ⊢
          exact ih out' h2 i s t hi

/-- Witness for `transfer_pairwise`: a one-pair transfer of plain layers,
inspected at index 0. -/
theorem transfer_pairwise_witness :
    ([Layer.plain [1, 2]] : List Layer)[0]?
      = some (Layer.plain (([1, 2] : List ℚ).take ([3, 4] : List ℚ).length
          ++ ([3, 4] : List ℚ).drop ([1, 2] : List ℚ).length)) :=
  transfer_pairwise [(Layer.plain [1, 2], Layer.plain [3, 4])]
    [Layer.plain [1, 2]] rfl 0 (Layer.plain [1, 2]) (Layer.plain [3, 4]) rfl

/-- C8: the transfer is all-or-nothing.  `get_reparameterized_model` yields
no model exactly when some layer pair fails to fuse or copy; a single
failing pair aborts the whole transfer, and in that case the caller
receives only the failure — no partially converted model is exposed (and
the source model, an input of this pure function, is unchanged). -/
theorem transfer_atomic (src : ModelState) (fresh : List Layer) :
    getReparameterizedModel src fresh = none ↔
      ∃ (i : ℕ) (s t : Layer),
        (src.layers.zip fresh)[i]? = some (s, t) ∧ transferPair s t = none := by
  unfold getReparameterizedModel
  rw [Option.map_eq_none']
  generalize src.layers.zip fresh = l
  induction l with
  | nil =>
    simp [transferZipped]
  | cons p rest ih =>
    obtain ⟨s0, t0⟩ := p
    simp only [transferZipped]
    cases h1 : transferPair s0 t0 with
    | none =>
      constructor
      · intro _
        exact ⟨0, s0, t0, by simp, h1⟩
      · intro _
        cases transferZipped rest <;> rfl
    | some t' =>
      cases h2 : transferZipped rest with
      | none =>
        constructor
        · intro _
          obtain ⟨i, s, t, hi, hp⟩ := ih.mp h2
          exact ⟨i + 1, s, t, by simpa using hi, hp⟩
        · intro _
          rfl
      | some out' =>
        constructor
        · intro h
          exact Option.noConfusion h
        · rintro ⟨i, s, t, hi, hp⟩
          cases i with
          | zero =>
            simp only [List.getElem?_cons_zero] at hi
            have hst := Option.some.inj hi
            obtain ⟨rfl, rfl⟩ : s0 = s ∧ t0 = t :=
              ⟨congrArg Prod.fst hst, congrArg Prod.snd hst⟩
            rw [h1] at hp
            exact Option.noConfusion hp
          | succ i =>
            have hrest : transferZipped rest = none :=
              ih.mpr ⟨i, s, t, by simpa using hi, hp⟩
            rw [h2] at hrest
            exact Option.noConfusion hrest

/-- C10: a successful `get_reparameterized_model` returns a model whose
configuration equals the source's except that `reparameterized` is true
and `weights` is `None`; the source model is only read (the function is
pure in this embedding: every assignment targets the freshly constructed
model). -/
theorem getRep_preserves_config (src : ModelState) (fresh : List Layer)
    (m : ModelState) (h : getReparameterizedModel src fresh = some m) :
    m.config.num_blocks = src.config.num_blocks ∧
    m.config.num_channels = src.config.num_channels ∧
    m.config.stem_channels = src.config.stem_channels ∧
    m.config.branch_size = src.config.branch_size ∧
    m.config.reparameterized = true ∧
    m.config.weights = none := by
  unfold getReparameterizedModel at h
  cases htz : transferZipped (src.layers.zip fresh) with
  | none =>
    rw [htz] at h
    exact Option.noConfusion h
  | some ls =>
    rw [htz] at h
    have hm := Option.some.inj h
    rw [← hm]
    exact ⟨rfl, rfl, rfl, rfl, rfl, rfl⟩

/-- Witness for `getRep_preserves_config`: reparameterizing a one-layer
source model against one fresh plain layer. -/
theorem getRep_preserves_config_witness :
    wRepModel.config.num_blocks = wSrcModel.config.num_blocks ∧
    wRepModel.config.num_channels = wSrcModel.config.num_channels ∧
    wRepModel.config.stem_channels = wSrcModel.config.stem_channels ∧
    wRepModel.config.branch_size = wSrcModel.config.branch_size ∧
    wRepModel.config.reparameterized = true ∧
    wRepModel.config.weights = none :=
  getRep_preserves_config wSrcModel [Layer.plain [5, 6]] wRepModel rfl
